import Mathlib

/-!
Shallow embedding of the cursor/navigation and key-dispatch core of the
`rui` text-editor widget (`src/text_editor.rs`), together with theorems
settling the specification's claims about it.

Modelling conventions:
* Rust `usize` values (cursor, lengths, indices) are Lean `Nat`; the one
  place the source can underflow (`len - 1` with `len = 0` in `fwd`) is
  modelled explicitly, see `TextEditorState.fwd`.
* A Rust panic (integer underflow, index out of bounds in `Vec`/`String`)
  is modelled by `Option`: `none` means the operation faults.
* `f32` coordinates are modelled by `ℚ`. The source compares Euclidean
  distances `rects[i].center().distance_to(p)`; we compare squared
  Euclidean distances, which induces the same order since `sqrt` is
  strictly monotone on nonnegative reals. The `f32::MAX` initial sentinel
  of `closest_in_range` is modelled by `Option ℚ` with `none` as the
  sentinel, which every computed distance compares strictly below.
* The text is a `List Char` with the cursor as a character index; the
  source uses byte indices into a Rust `String`, which coincide with
  character indices on single-byte characters (the index-space conflation
  is a documented open question of the design).
-/

/-- A 2-D point in local coordinates (`LocalPoint` in the source). -/
structure LocalPoint where
  x : ℚ
  y : ℚ
deriving DecidableEq

/-- An axis-aligned glyph bounding box (`LocalRect` in the source):
origin plus size. -/
structure LocalRect where
  x : ℚ
  y : ℚ
  width : ℚ
  height : ℚ
deriving DecidableEq

/-- Center of a rectangle, as in `LocalRect::center()`. -/
def LocalRect.center (r : LocalRect) : LocalPoint :=
  ⟨r.x + r.width / 2, r.y + r.height / 2⟩

/-- Squared Euclidean distance between two points; order-equivalent to the
source's `distance_to` (see module docstring). -/
def LocalPoint.distSq (a b : LocalPoint) : ℚ :=
  (a.x - b.x) * (a.x - b.x) + (a.y - b.y) * (a.y - b.y)

/-- One visual line's glyph range (`LineMetrics` in the source; only the
`glyph_start`/`glyph_end` fields are used by this subsystem).
The range is half-open: `[glyph_start, glyph_end)`. -/
structure LineMetrics where
  glyph_start : Nat
  glyph_end : Nat
deriving DecidableEq

/-- The editor's per-widget state (`TextEditorState` in the source). -/
structure TextEditorState where
  cursor : Nat
  glyph_rects : List LocalRect
  lines : List LineMetrics
deriving DecidableEq

namespace TextEditorState

/-- `TextEditorState::new()`. -/
def new : TextEditorState :=
  { cursor := 0, glyph_rects := [], lines := [] }

/-- `TextEditorState::fwd(len)`:
`self.cursor += 1; if self.cursor >= len { self.cursor = len - 1 }`.
When `len = 0` the branch is taken and `len - 1` underflows the `usize`,
a panic in debug builds (and a wrap to `usize::MAX` in release builds);
either way the operation faults rather than leaving the cursor at 0, so
it is modelled as `none`. -/
def fwd (st : TextEditorState) (len : Nat) : Option TextEditorState :=
  if st.cursor + 1 ≥ len then
    if len = 0 then none
    else some { st with cursor := len - 1 }
  else some { st with cursor := st.cursor + 1 }

/-- `TextEditorState::back()`: decrement the cursor if positive. -/
def back (st : TextEditorState) : TextEditorState :=
  if st.cursor > 0 then { st with cursor := st.cursor - 1 } else st

/-- The loop body of `TextEditorState::find_line`: index of the first line
whose range contains `cursor`, or the number of lines if none does. -/
def findLineAux (cursor : Nat) : List LineMetrics → Nat
  | [] => 0
  | l :: rest =>
    if cursor ≥ l.glyph_start ∧ cursor < l.glyph_end then 0
    else findLineAux cursor rest + 1

/-- `TextEditorState::find_line()`. -/
def find_line (st : TextEditorState) : Nat :=
  findLineAux st.cursor st.lines

/-- Comparison of a squared distance against the running best of
`closest_in_range`; `none` is the initial `f32::MAX` sentinel, which every
computed distance is strictly below. -/
def ltSentinel (dp : ℚ) : Option ℚ → Bool
  | none => true
  | some d => decide (dp < d)

/-- The loop of `TextEditorState::closest_in_range` over an explicit list
of indices, carrying the running best index and best distance. `rects[i]`
out of bounds is a Rust panic, hence `none`. -/
def closestLoop (p : LocalPoint) (rects : List LocalRect) :
    List Nat → Nat → Option ℚ → Option Nat
  | [], closest, _ => some closest
  | i :: rest, closest, d =>
    match rects[i]? with
    | none => none
    | some r =>
      let dp := LocalPoint.distSq r.center p
      if ltSentinel dp d then closestLoop p rects rest i (some dp)
      else closestLoop p rects rest closest d

/-- `TextEditorState::closest_in_range(p, rstart..rstop, rects)`:
`closest` starts at 0 and `d` at the `f32::MAX` sentinel; the Rust range
`rstart..rstop` iterates `rstart, rstart+1, …, rstop-1` (empty when
`rstop ≤ rstart`). -/
def closest_in_range (p : LocalPoint) (rstart rstop : Nat)
    (rects : List LocalRect) : Option Nat :=
  closestLoop p rects (List.range' rstart (rstop - rstart)) 0 none

/-- `TextEditorState::down()`: the initial `self.glyph_rects[self.cursor]`
panics when the cursor is out of bounds of the glyph boxes. The source's
locals `p = glyph_rects[cursor].center()` and `line = find_line() + 1`
are inlined. -/
def down (st : TextEditorState) : Option TextEditorState :=
  match st.glyph_rects[st.cursor]? with
  | none => none
  | some r =>
    if h : st.find_line + 1 < st.lines.length then
      match closest_in_range r.center
          (st.lines.get ⟨st.find_line + 1, h⟩).glyph_start
          (st.lines.get ⟨st.find_line + 1, h⟩).glyph_end st.glyph_rects with
      | none => none
      | some c => some { st with cursor := c }
    else some st

/-- `TextEditorState::up()`: symmetric to `down`, using the previous
line; `self.lines[line - 1]` is modelled with the same panic-as-`none`
convention (it is in fact always in bounds when `line > 0`). -/
def up (st : TextEditorState) : Option TextEditorState :=
  match st.glyph_rects[st.cursor]? with
  | none => none
  | some r =>
    if st.find_line > 0 then
      match st.lines[st.find_line - 1]? with
      | none => none
      | some metrics =>
        match closest_in_range r.center metrics.glyph_start
            metrics.glyph_end st.glyph_rects with
        | none => none
        | some c => some { st with cursor := c }
    else some st

end TextEditorState

/-- The `KeyPress` events dispatched by `TextEditorState::key`; `Other`
stands for the source's catch-all `_` arm. -/
inductive KeyPress where
  | ArrowLeft
  | ArrowRight
  | ArrowUp
  | ArrowDown
  | Backspace
  | Character (c : List Char)
  | Space
  | Home
  | End
  | Other
deriving DecidableEq

/-- `String::remove(i)`: removes and returns the character at index `i`,
panicking (`none`) when `i` is out of bounds. -/
def removeAt : List Char → Nat → Option (List Char)
  | [], _ => none
  | _ :: xs, 0 => some xs
  | x :: xs, n + 1 => (removeAt xs n).map (x :: ·)

/-- `String::insert_str(i, s)` / `String::insert(i, c)`: inserts at index
`i`, panicking (`none`) when `i > length`. -/
def insertAt (l : List Char) (i : Nat) (s : List Char) : Option (List Char) :=
  if i ≤ l.length then some (l.take i ++ s ++ l.drop i) else none

namespace TextEditorState

/-- `TextEditorState::key(k, text)`: the dispatcher, returning the updated
state and the new text (`none` when the source would panic). -/
def key (st : TextEditorState) (k : KeyPress) (text : List Char) :
    Option (TextEditorState × List Char) :=
  match k with
  | KeyPress.ArrowLeft => some (st.back, text)
  | KeyPress.ArrowRight => (st.fwd text.length).map (fun s => (s, text))
  | KeyPress.ArrowUp => st.up.map (fun s => (s, text))
  | KeyPress.ArrowDown => st.down.map (fun s => (s, text))
  | KeyPress.Backspace =>
    if st.cursor > 0 then
      match removeAt text (st.cursor - 1) with
      | none => none
      | some t => some (st.back, t)
    else some (st, text)
  | KeyPress.Character c =>
    match insertAt text st.cursor c with
    | none => none
    | some t => some ({ st with cursor := st.cursor + c.length }, t)
  | KeyPress.Space =>
    match insertAt text st.cursor [' '] with
    | none => none
    | some t => some ({ st with cursor := st.cursor + 1 }, t)
  | KeyPress.Home => some ({ st with cursor := 0 }, text)
  | KeyPress.End => some ({ st with cursor := text.length }, text)
  | KeyPress.Other => some (st, text)

/-- Dispatching a finite sequence of key events, threading state and text;
faults if any single dispatch faults. -/
def keySeq (st : TextEditorState) (ks : List KeyPress) (text : List Char) :
    Option (TextEditorState × List Char) :=
  match ks with
  | [] => some (st, text)
  | k :: rest =>
    match st.key k text with
    | none => none
    | some (st', t') => keySeq st' rest t'

end TextEditorState

/-- A line span contains a cursor position:
`glyph_start ≤ cursor < glyph_end`. -/
def lineContains (l : LineMetrics) (c : Nat) : Prop :=
  l.glyph_start ≤ c ∧ c < l.glyph_end

instance (l : LineMetrics) (c : Nat) : Decidable (lineContains l c) := by
  unfold lineContains
  infer_instance

/-- The contiguity invariant of the geometry: adjacent spans abut
(`span[i].end = span[i+1].start`) and the spans' union covers exactly
`[0, glyph_count)`. -/
def Contiguous (lines : List LineMetrics) (glyph_count : Nat) : Prop :=
  (∀ i, i + 1 < lines.length →
    (lines.getD i ⟨0, 0⟩).glyph_end =
      (lines.getD (i + 1) ⟨0, 0⟩).glyph_start) ∧
  (∀ c, c < glyph_count ↔
    ∃ i < lines.length, lineContains (lines.getD i ⟨0, 0⟩) c)

/-- The (squared) distance from glyph `i`'s box center to `p`, as computed
inside the `closest_in_range` loop; total via a default box, and equal to
the loop's quantity whenever `i` is in bounds. -/
def gdist (p : LocalPoint) (rects : List LocalRect) (i : Nat) : ℚ :=
  LocalPoint.distSq (rects.getD i ⟨0, 0, 0, 0⟩).center p

/-! ### Basic lemmas about the moves -/

namespace TextEditorState

lemma back_pos (st : TextEditorState) (h : 0 < st.cursor) :
    st.back = { st with cursor := st.cursor - 1 } := by
  unfold back
  rw [if_pos h]

lemma back_zero (st : TextEditorState) (h : st.cursor = 0) : st.back = st := by
  unfold back
  rw [if_neg (by omega)]

lemma fwd_cursor (st : TextEditorState) (L : Nat) (h : st.cursor + 1 < L) :
    st.fwd L = some { st with cursor := st.cursor + 1 } := by
  unfold fwd
  rw [if_neg (by omega)]

lemma fwd_clamp (st : TextEditorState) (L : Nat) (h1 : st.cursor + 1 ≥ L)
    (h2 : L ≠ 0) : st.fwd L = some { st with cursor := L - 1 } := by
  unfold fwd
  rw [if_pos h1, if_neg h2]

/-- When the text is non-empty, `fwd` succeeds and keeps the cursor
strictly below the length, touching nothing but the cursor. -/
lemma fwd_spec (st : TextEditorState) (L : Nat) (hL : 0 < L) :
    ∃ st', st.fwd L = some st' ∧ st'.cursor < L ∧
      st'.glyph_rects = st.glyph_rects ∧ st'.lines = st.lines := by
  by_cases h : st.cursor + 1 ≥ L
  · exact ⟨_, fwd_clamp st L h (by omega), by simp; omega, rfl, rfl⟩
  · exact ⟨_, fwd_cursor st L (by omega), by simp; omega, rfl, rfl⟩

end TextEditorState

/-! ### Claim theorems (easy group) -/

/-- Claim C1 (refuted, code bug): on empty text with cursor 0, ArrowLeft
and Backspace are indeed no-ops, but ArrowRight calls `fwd(0)`, which
increments the cursor to 1, takes the `cursor >= len` branch and computes
`0usize - 1`: an underflow, i.e. a fault, not a no-op — the cursor does
not remain 0. -/
theorem c1_empty_text_events :
    TextEditorState.key ⟨0, [], []⟩ KeyPress.ArrowLeft [] =
      some (⟨0, [], []⟩, []) ∧
    TextEditorState.key ⟨0, [], []⟩ KeyPress.Backspace [] =
      some (⟨0, [], []⟩, []) ∧
    TextEditorState.key ⟨0, [], []⟩ KeyPress.ArrowRight [] = none ∧
    TextEditorState.fwd ⟨0, [], []⟩ 0 = none :=
  ⟨rfl, rfl, rfl, rfl⟩

/-- Claim C2 (refuted, code bug): with a stale cursor past the end of the
glyph boxes, `down` and `up` dereference `glyph_rects[cursor]` with no
bounds check and fault, instead of degrading to a no-op; `back` and `fwd`
never touch the glyph boxes and do not fault (for `fwd`, with non-zero
length). -/
theorem c2_down_up_fault_on_stale_cursor :
    TextEditorState.down ⟨1, [], []⟩ = none ∧
    TextEditorState.up ⟨1, [], []⟩ = none ∧
    TextEditorState.back ⟨1, [], []⟩ = ⟨0, [], []⟩ ∧
    TextEditorState.fwd ⟨1, [], []⟩ 2 = some ⟨1, [], []⟩ :=
  ⟨rfl, rfl, rfl, rfl⟩

/-- Claim C3 (refuted, code bug): with a cursor covered by no line span
but still inside the glyph boxes (three glyphs, one line span `[0,2)`,
cursor 2), `find_line` returns `lines.len() = 1 > 0`, so `up` jumps into
the last line and sets the cursor to 1 — not a no-op; `down` on the same
state is a no-op. -/
theorem c3_up_moves_uncovered_cursor :
    TextEditorState.up
        ⟨2, [⟨0, 0, 1, 1⟩, ⟨1, 0, 1, 1⟩, ⟨2, 0, 1, 1⟩], [⟨0, 2⟩]⟩ =
      some ⟨1, [⟨0, 0, 1, 1⟩, ⟨1, 0, 1, 1⟩, ⟨2, 0, 1, 1⟩], [⟨0, 2⟩]⟩ ∧
    TextEditorState.down
        ⟨2, [⟨0, 0, 1, 1⟩, ⟨1, 0, 1, 1⟩, ⟨2, 0, 1, 1⟩], [⟨0, 2⟩]⟩ =
      some ⟨2, [⟨0, 0, 1, 1⟩, ⟨1, 0, 1, 1⟩, ⟨2, 0, 1, 1⟩], [⟨0, 2⟩]⟩ := by
  constructor
  · norm_num [TextEditorState.up, TextEditorState.find_line,
      TextEditorState.findLineAux, TextEditorState.closest_in_range,
      TextEditorState.closestLoop, TextEditorState.ltSentinel,
      LocalRect.center, LocalPoint.distSq, List.range']
  · norm_num [TextEditorState.down, TextEditorState.find_line,
      TextEditorState.findLineAux]

/-- Claim C6 (confirmed): away from the boundaries (`0 < cursor` and
`cursor < L - 1`), `back` then `fwd L` — and symmetrically `fwd L` then
`back` — restore the original state exactly. -/
theorem c6_back_fwd_local_inverse (st : TextEditorState) (L : Nat)
    (h1 : 0 < st.cursor) (h2 : st.cursor < L - 1) :
    (st.back).fwd L = some st ∧
    (st.fwd L).map TextEditorState.back = some st := by
  have hb : st.back = { st with cursor := st.cursor - 1 } :=
    TextEditorState.back_pos st h1
  constructor
  · rw [hb, TextEditorState.fwd_cursor _ L (by simp; omega)]
    have hc : st.cursor - 1 + 1 = st.cursor := by omega
    simp [hc]
  · rw [TextEditorState.fwd_cursor st L (by omega)]
    simp only [Option.map_some']
    rw [TextEditorState.back_pos _ (by simp)]
    simp

/-- Witness for C6 at cursor 1, length 3. -/
theorem c6_back_fwd_local_inverse_witness :
    0 < (1 : Nat) ∧ (1 : Nat) < 3 - 1 ∧
    (TextEditorState.back ⟨1, [], []⟩).fwd 3 = some ⟨1, [], []⟩ ∧
    (TextEditorState.fwd ⟨1, [], []⟩ 3).map TextEditorState.back =
      some ⟨1, [], []⟩ :=
  ⟨by decide, by decide,
    c6_back_fwd_local_inverse ⟨1, [], []⟩ 3 (by decide) (by decide)⟩

/-! ### Removal lemma for Backspace -/

lemma removeAt_eq_some (l : List Char) :
    ∀ i, i < l.length → removeAt l i = some (l.take i ++ l.drop (i + 1)) := by
  induction l with
  | nil => intro i h; simp at h
  | cons x xs ih =>
    intro i h
    cases i with
    | zero => simp [removeAt]
    | succ n =>
      simp only [removeAt, List.take_succ_cons, List.drop_succ_cons,
        ih n (by simpa using h), Option.map_some']
      rfl

/-- Claim C9 (confirmed): Backspace with `cursor > 0` (and the cursor
within the text, so that a character immediately before it exists) removes
exactly that one character and decrements the cursor; with `cursor = 0` it
is a no-op on both state and text. -/
theorem c9_backspace (st : TextEditorState) (text : List Char) :
    (0 < st.cursor → st.cursor ≤ text.length →
      st.key KeyPress.Backspace text =
        some ({ st with cursor := st.cursor - 1 },
          text.take (st.cursor - 1) ++ text.drop st.cursor)) ∧
    (st.cursor = 0 → st.key KeyPress.Backspace text = some (st, text)) := by
  constructor
  · intro h1 h2
    have hr := removeAt_eq_some text (st.cursor - 1) (by omega)
    have hc : st.cursor - 1 + 1 = st.cursor := by omega
    rw [hc] at hr
    simp [TextEditorState.key, if_pos h1, hr, TextEditorState.back_pos st h1]
  · intro h0
    simp [TextEditorState.key, h0]

/-- Witness for C9: text "ab" (as char codes 97, 98), cursor 1, Backspace
yields text "b" and cursor 0. -/
theorem c9_backspace_witness :
    0 < (1 : Nat) ∧
    TextEditorState.key ⟨1, [], []⟩ KeyPress.Backspace
        [Char.ofNat 97, Char.ofNat 98] =
      some (⟨0, [], []⟩, [Char.ofNat 98]) := by
  refine ⟨by decide, ?_⟩
  have h := (c9_backspace ⟨1, [], []⟩ [Char.ofNat 97, Char.ofNat 98]).1
    (by decide) (by decide)
  simpa using h

/-- Claim C10 (confirmed): the nearest-glyph search on an empty range
(`rstop ≤ rstart`) never enters its loop, so it is total and returns the
initial `closest = 0`, for every point and every glyph-box list. -/
theorem c10_closest_empty_range (p : LocalPoint) (rstart rstop : Nat)
    (rects : List LocalRect) (h : rstop ≤ rstart) :
    TextEditorState.closest_in_range p rstart rstop rects = some 0 := by
  unfold TextEditorState.closest_in_range
  rw [Nat.sub_eq_zero_of_le h]
  rfl

/-- Witness for C10 with range `5..3` on an empty box list. -/
theorem c10_closest_empty_range_witness :
    (3 : Nat) ≤ 5 ∧
    TextEditorState.closest_in_range ⟨0, 0⟩ 5 3 [] = some 0 :=
  ⟨by decide, c10_closest_empty_range ⟨0, 0⟩ 5 3 [] (by decide)⟩

/-- Claim C5 (confirmed): for non-empty text, any finite sequence of
ArrowLeft/ArrowRight events dispatches without fault, leaves the text
unchanged, and keeps `cursor < text.length` throughout. -/
theorem c5_arrow_sequences_preserve_invariant (ks : List KeyPress) :
    ∀ (st : TextEditorState) (text : List Char),
    (∀ k ∈ ks, k = KeyPress.ArrowLeft ∨ k = KeyPress.ArrowRight) →
    text ≠ [] → st.cursor < text.length →
    ∃ st', st.keySeq ks text = some (st', text) ∧
      st'.cursor < text.length := by
  induction ks with
  | nil => exact fun st text _ _ hc => ⟨st, rfl, hc⟩
  | cons k rest ih =>
    intro st text hks ht hc
    have hrest : ∀ k ∈ rest, k = KeyPress.ArrowLeft ∨ k = KeyPress.ArrowRight :=
      fun k hk => hks k (List.mem_cons_of_mem _ hk)
    rcases hks k (List.mem_cons_self k rest) with hk | hk
    · subst hk
      have hb : st.back.cursor < text.length := by
        unfold TextEditorState.back
        split
        · simp
          omega
        · simpa using hc
      obtain ⟨st', h1, h2⟩ := ih st.back text hrest ht hb
      refine ⟨st', ?_, h2⟩
      simpa [TextEditorState.keySeq, TextEditorState.key] using h1
    · subst hk
      have hL : 0 < text.length := List.length_pos.mpr ht
      obtain ⟨st2, hf, hf2, _, _⟩ := TextEditorState.fwd_spec st text.length hL
      obtain ⟨st', h1, h2⟩ := ih st2 text hrest ht hf2
      refine ⟨st', ?_, h2⟩
      simpa [TextEditorState.keySeq, TextEditorState.key, hf] using h1

/-- Witness for C5: text "a", cursor 0, events [ArrowRight, ArrowLeft]. -/
theorem c5_arrow_sequences_witness :
    ∃ st', TextEditorState.keySeq ⟨0, [], []⟩
        [KeyPress.ArrowRight, KeyPress.ArrowLeft] [Char.ofNat 97] =
      some (st', [Char.ofNat 97]) ∧ st'.cursor < [Char.ofNat 97].length :=
  c5_arrow_sequences_preserve_invariant
    [KeyPress.ArrowRight, KeyPress.ArrowLeft] ⟨0, [], []⟩ [Char.ofNat 97]
    (by decide) (by decide) (by decide)

/-! ### Line lookup: specification of `find_line` -/

/-- `findLineAux` returns the index of the first containing line, or the
number of lines if none contains the cursor. -/
lemma findLineAux_spec (cursor : Nat) (lines : List LineMetrics) :
    (TextEditorState.findLineAux cursor lines < lines.length ∧
      lineContains (lines.getD (TextEditorState.findLineAux cursor lines)
        ⟨0, 0⟩) cursor ∧
      ∀ j < TextEditorState.findLineAux cursor lines,
        ¬ lineContains (lines.getD j ⟨0, 0⟩) cursor) ∨
    (TextEditorState.findLineAux cursor lines = lines.length ∧
      ∀ j < lines.length, ¬ lineContains (lines.getD j ⟨0, 0⟩) cursor) := by
  induction lines with
  | nil => exact Or.inr ⟨rfl, fun j hj => by simp at hj⟩
  | cons l rest ih =>
    by_cases hl : cursor ≥ l.glyph_start ∧ cursor < l.glyph_end
    · left
      rw [TextEditorState.findLineAux, if_pos hl]
      exact ⟨by simp, hl, fun j hj => by omega⟩
    · rw [TextEditorState.findLineAux, if_neg hl]
      rcases ih with ⟨h1, h2, h3⟩ | ⟨h1, h2⟩
      · left
        refine ⟨by simpa using h1, by simpa using h2, ?_⟩
        intro j hj
        cases j with
        | zero => simpa [lineContains] using hl
        | succ n => simpa using h3 n (by omega)
      · right
        refine ⟨by simpa using h1, ?_⟩
        intro j hj
        cases j with
        | zero => simpa [lineContains] using hl
        | succ n => simpa using h2 n (by simpa using hj)

/-- Claim C7 (confirmed): for every geometry satisfying the contiguity
invariant and every cursor, `find_line` returns the index of the first
line span containing the cursor, and `lines.length` when no span contains
it. (The property holds for arbitrary geometry; the contiguity hypothesis
of the claim is not even needed.) -/
theorem c7_find_line_first_containing (st : TextEditorState)
    (glyph_count : Nat) (_hcont : Contiguous st.lines glyph_count) :
    (st.find_line < st.lines.length ∧
      lineContains (st.lines.getD st.find_line ⟨0, 0⟩) st.cursor ∧
      ∀ j < st.find_line, ¬ lineContains (st.lines.getD j ⟨0, 0⟩) st.cursor) ∨
    (st.find_line = st.lines.length ∧
      ∀ j < st.lines.length,
        ¬ lineContains (st.lines.getD j ⟨0, 0⟩) st.cursor) :=
  findLineAux_spec st.cursor st.lines

/-- Witness for C7: one line `[0,1)` covering one glyph, cursor 0. -/
theorem c7_find_line_witness :
    Contiguous [⟨0, 1⟩] 1 ∧
    ((TextEditorState.find_line ⟨0, [], [⟨0, 1⟩]⟩ < 1 ∧
      lineContains ([(⟨0, 1⟩ : LineMetrics)].getD
        (TextEditorState.find_line ⟨0, [], [⟨0, 1⟩]⟩) ⟨0, 0⟩) 0 ∧
      ∀ j < TextEditorState.find_line ⟨0, [], [⟨0, 1⟩]⟩,
        ¬ lineContains ([(⟨0, 1⟩ : LineMetrics)].getD j ⟨0, 0⟩) 0) ∨
    (TextEditorState.find_line ⟨0, [], [⟨0, 1⟩]⟩ = 1 ∧
      ∀ j < 1, ¬ lineContains ([(⟨0, 1⟩ : LineMetrics)].getD j ⟨0, 0⟩) 0)) := by
  have hcont : Contiguous [⟨0, 1⟩] 1 := by
    constructor
    · intro i hi
      simp at hi
    · intro c
      constructor
      · intro hc
        exact ⟨0, by simp, by simpa [lineContains] using hc⟩
      · rintro ⟨i, hi, hc⟩
        simp only [List.length_singleton] at hi
        have hi0 : i = 0 := by omega
        subst hi0
        simpa [lineContains] using hc
  exact ⟨hcont, c7_find_line_first_containing ⟨0, [], [⟨0, 1⟩]⟩ 1 hcont⟩

/-! ### The dispatcher's cursor invariant (claim C4) -/

/-- Any index the `closest_in_range` loop can return is either its initial
best or a valid index into the glyph boxes. -/
lemma closestLoop_some_bound (p : LocalPoint) (rects : List LocalRect) :
    ∀ (is : List Nat) (c0 : Nat) (d : Option ℚ) (c : Nat),
    TextEditorState.closestLoop p rects is c0 d = some c →
    c = c0 ∨ c < rects.length := by
  intro is
  induction is with
  | nil =>
    intro c0 d c h
    left
    simpa [TextEditorState.closestLoop] using h.symm
  | cons i rest ih =>
    intro c0 d c h
    cases hri : rects[i]? with
    | none => simp [TextEditorState.closestLoop, hri] at h
    | some r =>
      simp only [TextEditorState.closestLoop, hri] at h
      split at h
      · rcases ih _ _ _ h with h1 | h1
        · right
          subst h1
          exact (List.getElem?_eq_some_iff.mp hri).1
        · exact Or.inr h1
      · exact ih _ _ _ h

/-- When `up` completes, the new cursor is the old one, 0, or a valid
glyph index. -/
lemma up_cursor_bound (st s2 : TextEditorState)
    (h : TextEditorState.up st = some s2) :
    s2.cursor = st.cursor ∨ s2.cursor = 0 ∨
      s2.cursor < st.glyph_rects.length := by
  unfold TextEditorState.up at h
  split at h
  · exact absurd h (by simp)
  · split at h
    · split at h
      · exact absurd h (by simp)
      · split at h
        · exact absurd h (by simp)
        · rename_i r hr metrics hm c hcl
          obtain rfl := Option.some.inj h
          unfold TextEditorState.closest_in_range at hcl
          rcases closestLoop_some_bound _ _ _ _ _ _ hcl with h1 | h1
          · right
            left
            simpa using h1
          · right
            right
            simpa using h1
    · obtain rfl := Option.some.inj h
      left
      rfl

/-- When `down` completes, the new cursor is the old one, 0, or a valid
glyph index. -/
lemma down_cursor_bound (st s2 : TextEditorState)
    (h : TextEditorState.down st = some s2) :
    s2.cursor = st.cursor ∨ s2.cursor = 0 ∨
      s2.cursor < st.glyph_rects.length := by
  unfold TextEditorState.down at h
  split at h
  · exact absurd h (by simp)
  · split at h
    · split at h
      · exact absurd h (by simp)
      · rename_i r hr hlt c hcl
        obtain rfl := Option.some.inj h
        unfold TextEditorState.closest_in_range at hcl
        rcases closestLoop_some_bound _ _ _ _ _ _ hcl with h1 | h1
        · right
          left
          simpa using h1
        · right
          right
          simpa using h1
    · obtain rfl := Option.some.inj h
      left
      rfl

/-- Claim C4 counterexample: with text "a" (one glyph box, matching
length), cursor 0, the End event completes and sets cursor to
1 = new text length, so `cursor < new_text.length` fails even though the
new text is non-empty. -/
theorem c4_end_breaks_strict_invariant :
    TextEditorState.key ⟨0, [⟨0, 0, 1, 1⟩], []⟩ KeyPress.End [Char.ofNat 97] =
      some (⟨1, [⟨0, 0, 1, 1⟩], []⟩, [Char.ofNat 97]) ∧
    ¬ ((1 : Nat) < [Char.ofNat 97].length) :=
  ⟨rfl, by decide⟩

/-- Claim C4 as amended: the invariant `cursor < new_text.length` is
preserved by every key event other than End (when the dispatch completes
and the new text is non-empty); End instead sets `cursor = text.length`,
one past the strict bound. -/
theorem c4_amended_invariant (st : TextEditorState) (k : KeyPress)
    (text : List Char) (st' : TextEditorState) (t' : List Char)
    (hg : st.glyph_rects.length = text.length) (ht : 0 < text.length)
    (hc : st.cursor < text.length) (hk : k ≠ KeyPress.End)
    (hkey : st.key k text = some (st', t')) (ht' : t' ≠ []) :
    st'.cursor < t'.length := by
  cases k with
  | ArrowLeft =>
    simp only [TextEditorState.key, Option.some.injEq, Prod.mk.injEq] at hkey
    obtain ⟨rfl, rfl⟩ := hkey
    unfold TextEditorState.back
    split
    · simp
      omega
    · simpa using hc
  | ArrowRight =>
    obtain ⟨st2, hf, hf2, _, _⟩ := TextEditorState.fwd_spec st text.length ht
    simp only [TextEditorState.key, hf, Option.map_some', Option.some.injEq,
      Prod.mk.injEq] at hkey
    obtain ⟨rfl, rfl⟩ := hkey
    exact hf2
  | ArrowUp =>
    cases hu : st.up with
    | none => simp [TextEditorState.key, hu] at hkey
    | some s2 =>
      simp only [TextEditorState.key, hu, Option.map_some', Option.some.injEq,
        Prod.mk.injEq] at hkey
      obtain ⟨rfl, rfl⟩ := hkey
      rcases up_cursor_bound st _ hu with h1 | h1 | h1
      · omega
      · omega
      · omega
  | ArrowDown =>
    cases hu : st.down with
    | none => simp [TextEditorState.key, hu] at hkey
    | some s2 =>
      simp only [TextEditorState.key, hu, Option.map_some', Option.some.injEq,
        Prod.mk.injEq] at hkey
      obtain ⟨rfl, rfl⟩ := hkey
      rcases down_cursor_bound st _ hu with h1 | h1 | h1
      · omega
      · omega
      · omega
  | Backspace =>
    simp only [TextEditorState.key] at hkey
    split at hkey
    · rw [removeAt_eq_some text (st.cursor - 1) (by omega)] at hkey
      simp only [Option.some.injEq, Prod.mk.injEq] at hkey
      obtain ⟨rfl, rfl⟩ := hkey
      have hlen : (text.take (st.cursor - 1) ++ text.drop (st.cursor - 1 + 1)).length =
          text.length - 1 := by
        simp
        omega
      have hpos : 0 < (text.take (st.cursor - 1) ++
          text.drop (st.cursor - 1 + 1)).length :=
        List.length_pos.mpr ht'
      unfold TextEditorState.back
      split
      · simp
        omega
      · simp
        omega
    · simp only [Option.some.injEq, Prod.mk.injEq] at hkey
      obtain ⟨rfl, rfl⟩ := hkey
      exact hc
  | Character c =>
    simp only [TextEditorState.key, insertAt, if_pos (by omega : st.cursor ≤ text.length),
      Option.some.injEq, Prod.mk.injEq] at hkey
    obtain ⟨rfl, rfl⟩ := hkey
    simp
    omega
  | Space =>
    simp only [TextEditorState.key, insertAt, if_pos (by omega : st.cursor ≤ text.length),
      Option.some.injEq, Prod.mk.injEq] at hkey
    obtain ⟨rfl, rfl⟩ := hkey
    simp
    omega
  | Home =>
    simp only [TextEditorState.key, Option.some.injEq, Prod.mk.injEq] at hkey
    obtain ⟨rfl, rfl⟩ := hkey
    simpa using List.length_pos.mpr ht'
  | End => exact absurd rfl hk
  | Other =>
    simp only [TextEditorState.key, Option.some.injEq, Prod.mk.injEq] at hkey
    obtain ⟨rfl, rfl⟩ := hkey
    exact hc

/-! ### Nearest-glyph search: specification of `closest_in_range`

The source compares `f32` Euclidean distances; `gdist` is the squared
rational distance, which orders pairs of points identically, so
"minimum distance" below is expressed through `gdist`. -/

lemma getElem?_eq_some_getD (rects : List LocalRect) (i : Nat)
    (hi : i < rects.length) :
    rects[i]? = some (rects.getD i ⟨0, 0, 0, 0⟩) := by
  rw [List.getElem?_eq_getElem hi, List.getD_eq_getElem?_getD,
    List.getElem?_eq_getElem hi]
  rfl

/-- Invariant of the `closest_in_range` loop once the running best is a
real distance `v` for index `c0`: the loop completes (indices in bounds)
and returns either `c0` (nothing beats `v`) or the first index in the
remaining list realizing the minimum, which beats `v`. -/
lemma closestLoop_min_spec (p : LocalPoint) (rects : List LocalRect) :
    ∀ (is : List Nat) (c0 : Nat) (v : ℚ),
    (∀ i ∈ is, i < rects.length) →
    ∃ c, TextEditorState.closestLoop p rects is c0 (some v) = some c ∧
      ((c = c0 ∧ ∀ i ∈ is, v ≤ gdist p rects i) ∨
       (∃ pre post, is = pre ++ c :: post ∧ gdist p rects c < v ∧
         (∀ i ∈ pre, gdist p rects c < gdist p rects i) ∧
         (∀ i ∈ post, gdist p rects c ≤ gdist p rects i))) := by
  intro is
  induction is with
  | nil =>
    intro c0 v _
    exact ⟨c0, rfl, Or.inl ⟨rfl, by simp⟩⟩
  | cons i rest ih =>
    intro c0 v hb
    have hi : i < rects.length := hb i (List.mem_cons_self _ _)
    have hrest : ∀ j ∈ rest, j < rects.length :=
      fun j hj => hb j (List.mem_cons_of_mem _ hj)
    simp only [TextEditorState.closestLoop, getElem?_eq_some_getD rects i hi]
    by_cases hlt : gdist p rects i < v
    · have hsent : TextEditorState.ltSentinel
          (LocalPoint.distSq (rects.getD i ⟨0, 0, 0, 0⟩).center p)
          (some v) = true := by
        simp only [TextEditorState.ltSentinel, decide_eq_true_eq]
        exact hlt
      rw [hsent, if_pos rfl]
      obtain ⟨c, hcc, hspec⟩ := ih i (gdist p rects i) hrest
      refine ⟨c, hcc, Or.inr ?_⟩
      rcases hspec with ⟨rfl, hall⟩ | ⟨pre, post, heq, hlt2, hpre, hpost⟩
      · exact ⟨[], rest, rfl, hlt, by simp, hall⟩
      · refine ⟨i :: pre, post, by rw [heq, List.cons_append],
          lt_trans hlt2 hlt, ?_, hpost⟩
        intro j hj
        rcases List.mem_cons.mp hj with rfl | hj
        · exact hlt2
        · exact hpre j hj
    · have hsent : TextEditorState.ltSentinel
          (LocalPoint.distSq (rects.getD i ⟨0, 0, 0, 0⟩).center p)
          (some v) = false := by
        simp only [TextEditorState.ltSentinel, decide_eq_false_iff_not]
        exact hlt
      rw [hsent, if_neg Bool.false_ne_true]
      obtain ⟨c, hcc, hspec⟩ := ih c0 v hrest
      refine ⟨c, hcc, ?_⟩
      rcases hspec with ⟨rfl, hall⟩ | ⟨pre, post, heq, hlt2, hpre, hpost⟩
      · refine Or.inl ⟨rfl, ?_⟩
        intro j hj
        rcases List.mem_cons.mp hj with rfl | hj
        · exact le_of_not_lt hlt
        · exact hall j hj
      · refine Or.inr ⟨i :: pre, post, by rw [heq, List.cons_append],
          hlt2, ?_, hpost⟩
        intro j hj
        rcases List.mem_cons.mp hj with rfl | hj
        · exact lt_of_lt_of_le hlt2 (le_of_not_lt hlt)
        · exact hpre j hj

/-- From the `f32::MAX` sentinel, a non-empty in-bounds index list makes
`closestLoop` return the first index realizing the minimum distance. -/
lemma closestLoop_head_spec (p : LocalPoint) (rects : List LocalRect)
    (i : Nat) (rest : List Nat)
    (hb : ∀ j ∈ i :: rest, j < rects.length) :
    ∃ c, TextEditorState.closestLoop p rects (i :: rest) 0 none = some c ∧
      ∃ pre post, i :: rest = pre ++ c :: post ∧
        (∀ j ∈ pre, gdist p rects c < gdist p rects j) ∧
        (∀ j ∈ post, gdist p rects c ≤ gdist p rects j) := by
  have hi : i < rects.length := hb i (List.mem_cons_self _ _)
  have hrest : ∀ j ∈ rest, j < rects.length :=
    fun j hj => hb j (List.mem_cons_of_mem _ hj)
  simp only [TextEditorState.closestLoop, getElem?_eq_some_getD rects i hi]
  have hs : TextEditorState.ltSentinel
      (LocalPoint.distSq (rects.getD i ⟨0, 0, 0, 0⟩).center p) none = true := rfl
  rw [hs, if_pos rfl]
  obtain ⟨c, hcc, hspec⟩ :=
    closestLoop_min_spec p rects rest i (gdist p rects i) hrest
  refine ⟨c, hcc, ?_⟩
  rcases hspec with ⟨rfl, hall⟩ | ⟨pre, post, heq, hlt2, hpre, hpost⟩
  · exact ⟨[], rest, rfl, by simp, hall⟩
  · refine ⟨i :: pre, post, by rw [heq, List.cons_append], ?_, hpost⟩
    intro j hj
    rcases List.mem_cons.mp hj with rfl | hj
    · exact hlt2
    · exact hpre j hj

/-- Claim C8 (confirmed): for a non-empty range inside the glyph boxes,
`closest_in_range` returns an index of the range whose box center is at
minimum distance from `p`, ties broken by the lowest index (every
smaller index in the range is strictly farther); a one-element range
returns its element regardless of `p`. -/
theorem c8_nearest_glyph_minimum (p : LocalPoint) (rstart rstop : Nat)
    (rects : List LocalRect) (hne : rstart < rstop)
    (hub : rstop ≤ rects.length) :
    ∃ c, TextEditorState.closest_in_range p rstart rstop rects = some c ∧
      rstart ≤ c ∧ c < rstop ∧
      (∀ i, rstart ≤ i → i < rstop → gdist p rects c ≤ gdist p rects i) ∧
      (∀ i, rstart ≤ i → i < rstop → i < c →
        gdist p rects c < gdist p rects i) ∧
      (rstop = rstart + 1 → c = rstart) := by
  obtain ⟨n, hn⟩ : ∃ n, rstop - rstart = n + 1 :=
    ⟨rstop - rstart - 1, by omega⟩
  unfold TextEditorState.closest_in_range
  rw [hn, List.range'_succ]
  have hb : ∀ j ∈ rstart :: List.range' (rstart + 1) n,
      j < rects.length := by
    intro j hj
    rcases List.mem_cons.mp hj with rfl | hj
    · omega
    · rw [List.mem_range'_1] at hj
      omega
  obtain ⟨c, hcc, pre, post, heq, hpre, hpost⟩ :=
    closestLoop_head_spec p rects rstart (List.range' (rstart + 1) n) hb
  have hmemiff : ∀ j, j ∈ rstart :: List.range' (rstart + 1) n ↔
      rstart ≤ j ∧ j < rstop := by
    intro j
    rw [List.mem_cons, List.mem_range'_1]
    omega
  have hcmem : rstart ≤ c ∧ c < rstop := by
    rw [← hmemiff c, heq]
    exact List.mem_append.mpr (Or.inr (List.mem_cons_self _ _))
  have hpostgt : ∀ j ∈ post, c < j := by
    have h1 : rstart :: List.range' (rstart + 1) n =
        List.range' rstart (n + 1) := (List.range'_succ rstart n 1).symm
    have hsorted : (pre ++ c :: post).Pairwise (· < ·) := by
      rw [← heq, h1]
      exact List.pairwise_lt_range' _ _
    have h2 := (List.pairwise_append.mp hsorted).2.1
    exact fun j hj => (List.pairwise_cons.mp h2).1 j hj
  refine ⟨c, hcc, hcmem.1, hcmem.2, ?_, ?_, ?_⟩
  · intro i h1 h2
    have himem : i ∈ pre ++ c :: post := by
      rw [← heq]
      exact (hmemiff i).mpr ⟨h1, h2⟩
    rcases List.mem_append.mp himem with hi | hi
    · exact le_of_lt (hpre i hi)
    · rcases List.mem_cons.mp hi with rfl | hi
      · exact le_refl _
      · exact hpost i hi
  · intro i h1 h2 hic
    have himem : i ∈ pre ++ c :: post := by
      rw [← heq]
      exact (hmemiff i).mpr ⟨h1, h2⟩
    rcases List.mem_append.mp himem with hi | hi
    · exact hpre i hi
    · rcases List.mem_cons.mp hi with rfl | hi
      · exact (Nat.lt_irrefl _ hic).elim
      · exact absurd (hpostgt i hi) (by omega)
  · intro hs
    omega

/-- Witness for C8: two unit boxes at x = 0 and x = 1, point (0,0),
range `0..2`. -/
theorem c8_nearest_glyph_minimum_witness :
    (0 : Nat) < 2 ∧
    2 ≤ [(⟨0, 0, 1, 1⟩ : LocalRect), ⟨1, 0, 1, 1⟩].length ∧
    ∃ c, TextEditorState.closest_in_range ⟨0, 0⟩ 0 2
        [⟨0, 0, 1, 1⟩, ⟨1, 0, 1, 1⟩] = some c ∧
      0 ≤ c ∧ c < 2 ∧
      (∀ i, 0 ≤ i → i < 2 →
        gdist ⟨0, 0⟩ [⟨0, 0, 1, 1⟩, ⟨1, 0, 1, 1⟩] c ≤
          gdist ⟨0, 0⟩ [⟨0, 0, 1, 1⟩, ⟨1, 0, 1, 1⟩] i) ∧
      (∀ i, 0 ≤ i → i < 2 → i < c →
        gdist ⟨0, 0⟩ [⟨0, 0, 1, 1⟩, ⟨1, 0, 1, 1⟩] c <
          gdist ⟨0, 0⟩ [⟨0, 0, 1, 1⟩, ⟨1, 0, 1, 1⟩] i) ∧
      (2 = 0 + 1 → c = 0) :=
  ⟨by decide, by decide,
    c8_nearest_glyph_minimum ⟨0, 0⟩ 0 2 [⟨0, 0, 1, 1⟩, ⟨1, 0, 1, 1⟩]
      (by decide) (by decide)⟩

/-- Witness for the amended C4: one glyph box, text "a", cursor 0,
ArrowRight clamps the cursor to 0, which is below the length 1. -/
theorem c4_amended_invariant_witness :
    TextEditorState.key ⟨0, [⟨0, 0, 1, 1⟩], []⟩ KeyPress.ArrowRight
        [Char.ofNat 97] =
      some (⟨0, [⟨0, 0, 1, 1⟩], []⟩, [Char.ofNat 97]) ∧
    (⟨0, [⟨0, 0, 1, 1⟩], []⟩ : TextEditorState).cursor <
      [Char.ofNat 97].length := by
  refine ⟨rfl, ?_⟩
  exact c4_amended_invariant ⟨0, [⟨0, 0, 1, 1⟩], []⟩ KeyPress.ArrowRight
    [Char.ofNat 97] ⟨0, [⟨0, 0, 1, 1⟩], []⟩ [Char.ofNat 97]
    rfl (by decide) (by decide) (by decide) rfl (by decide)
